import Mathlib

/-!
Verification of the Neo N3 peer-to-peer wire codec of the neo-rs repository.

The repository ships hand-written protocol scripts
(dev/scripts/test_neo3_protocol.py, crates/network/test_neo3_protocol.py,
dev/scripts/analyze_neo_response.py) that build and parse Neo N3 wire
messages; the production streaming codec they exercise lives outside the
provided sources, so the streaming frame decoder, the strict VarInt decoder,
the VersionPayload codec and the message dispatcher are modelled from the
design document, while the VarInt encoder, the lenient VarInt decoder and
the two message builders are embedded directly from the scripts.

Bytes are modelled as natural numbers; every byte produced by the embedded
encoders is below 256.
-/

deriving instance DecidableEq for Except

namespace NeoP2P

/-- Little-endian serialization of a value into n bytes, as produced by
struct.pack with formats I, Q and H in the scripts. -/
def le_bytes : Nat → Nat → List Nat
  | 0, _ => []
  | n + 1, v => v % 256 :: le_bytes n (v / 256)

/-- Little-endian value of a byte list, as read by struct.unpack in the
scripts. -/
def le_val : List Nat → Nat
  | [] => 0
  | b :: bs => b + 256 * le_val bs

/-- The variable-width length encoding inlined in
src/dev/scripts/test_neo3_protocol.py, lines 54-65: one raw byte below 0xFD,
otherwise a marker byte 0xFD, 0xFE or 0xFF followed by the value as u16, u32
or u64 little-endian. -/
def encode_varint (v : Nat) : List Nat :=
  if v < 0xFD then [v]
  else if v ≤ 0xFFFF then 0xFD :: le_bytes 2 v
  else if v ≤ 0xFFFFFFFF then 0xFE :: le_bytes 4 v
  else 0xFF :: le_bytes 8 v

/-- The variable-width length decoding inlined in
src/dev/scripts/test_neo3_protocol.py, lines 90-104: reads the marker byte
and then 0, 2, 4 or 8 further little-endian bytes. Returns the value and the
total number of bytes consumed; none models the struct.error exception the
script raises when the slice is too short (byte values exhaust the four
branches, so the fallback is unreachable on real bytes). -/
def decode_varint : List Nat → Option (Nat × Nat)
  | [] => none
  | b :: rest =>
    if b < 0xFD then some (b, 1)
    else if b = 0xFD then
      if 2 ≤ rest.length then some (le_val (rest.take 2), 3) else none
    else if b = 0xFE then
      if 4 ≤ rest.length then some (le_val (rest.take 4), 5) else none
    else if b = 0xFF then
      if 8 ≤ rest.length then some (le_val (rest.take 8), 9) else none
    else none

/-- The three-case variable-width length encoding inlined twice in
src/crates/network/test_neo3_protocol.py (lines 33-41 for the user agent and
lines 66-74 for the payload length). Note the strict comparison n < 65535 in
the second branch and the absence of a 0xFF branch, exactly as in that
script. -/
def varlen_encode (n : Nat) : List Nat :=
  if n < 253 then [n]
  else if n < 65535 then 0xFD :: le_bytes 2 n
  else 0xFE :: le_bytes 4 n

/-- The bytes of the user agent string used by
src/crates/network/test_neo3_protocol.py, line 20. -/
def neo_rust_ua : List Nat := [0x4E, 0x45, 0x4F, 0x3A, 0x52, 0x75, 0x73, 0x74, 0x2F, 0x31]

/-- Embeds create_neo3_version_message of
src/crates/network/test_neo3_protocol.py, lines 11-47: the Version payload
with version 0, services 1, timestamp 0, port 0, nonce 0, the fixed user
agent, start height 0 and relay true. -/
def create_neo3_version_message : List Nat :=
  le_bytes 4 0 ++ le_bytes 8 1 ++ le_bytes 8 0 ++ le_bytes 2 0 ++ le_bytes 4 0 ++
  varlen_encode neo_rust_ua.length ++ neo_rust_ua ++ le_bytes 4 0 ++ [1]

/-- Embeds create_neo3_message of src/crates/network/test_neo3_protocol.py,
lines 49-77: flags byte 0, the command byte, the inlined three-case length
encoding of the payload length, then the payload. -/
def create_neo3_message (command : Nat) (payload : List Nat) : List Nat :=
  0 :: command :: (varlen_encode payload.length ++ payload)

/-- Modelled from the spec: the error taxonomy of section 7 for the
production codec, which is not among the provided sources. -/
inductive DecodeError where
  | incomplete
  | oversizedPayload
  | truncated
  | invalidUserAgentLength
  | invalidRelayByte
  | nonMinimalEncoding
deriving DecidableEq

/-- Modelled from the spec: VarIntCodec.decode of section 4.1 with the
default strict rejection of non-minimal encodings, part of the production
codec absent from the provided sources. Returns the value and the number of
bytes consumed; incomplete when fewer bytes are available than the marker
requires. -/
def decode_varint_strict : List Nat → Except DecodeError (Nat × Nat)
  | [] => .error .incomplete
  | b :: rest =>
    if b < 0xFD then .ok (b, 1)
    else if b = 0xFD then
      if 2 ≤ rest.length then
        if le_val (rest.take 2) < 0xFD then .error .nonMinimalEncoding
        else .ok (le_val (rest.take 2), 3)
      else .error .incomplete
    else if b = 0xFE then
      if 4 ≤ rest.length then
        if le_val (rest.take 4) ≤ 0xFFFF then .error .nonMinimalEncoding
        else .ok (le_val (rest.take 4), 5)
      else .error .incomplete
    else
      if 8 ≤ rest.length then
        if le_val (rest.take 8) ≤ 0xFFFFFFFF then .error .nonMinimalEncoding
        else .ok (le_val (rest.take 8), 9)
      else .error .incomplete

/-- Modelled from the spec: the fixed payload cap of section 4.2, 16 MiB. -/
def MAX_PAYLOAD_SIZE : Nat := 16 * 1024 * 1024

/-- Modelled from the spec: one complete wire-level unit of section 3. -/
structure Frame where
  flags : Nat
  command : Nat
  payload : List Nat
deriving DecidableEq

/-- Modelled from the spec: the DecoderState tagged variant of sections 3
and 4.2 of the production streaming decoder, which is not among the provided
sources. Each state holds only the partial bytes of the field in progress;
failed is the absorbing state after a fatal framing error. -/
inductive DecoderState where
  | awaitingHeader (buf : List Nat)
  | awaitingLengthMarker (flags command : Nat)
  | awaitingLengthTail (flags command : Nat) (need : Nat) (buf : List Nat)
  | awaitingPayload (flags command : Nat) (remaining : Nat) (acc : List Nat)
  | failed (e : DecodeError)
deriving DecidableEq

/-- Modelled from the spec: the initial decoder state, AwaitingHeader with
nothing buffered. -/
def DecoderState.init : DecoderState := .awaitingHeader []

/-- Modelled from the spec: the transition of section 4.2 taken once a full
CompactSize length has been read — fail with OversizedPayload beyond the
cap without buffering anything, emit an empty frame at once for length zero,
otherwise start accumulating the payload. -/
def acceptLength (f c len : Nat) : List Frame × DecoderState :=
  if MAX_PAYLOAD_SIZE < len then ([], .failed .oversizedPayload)
  else if len = 0 then ([⟨f, c, []⟩], .awaitingHeader [])
  else ([], .awaitingPayload f c len [])

/-- Modelled from the spec: one byte of progress of the section 4.2 state
machine. Emits the completed frames produced by consuming this byte. -/
def step : DecoderState → Nat → List Frame × DecoderState
  | .awaitingHeader [], b => ([], .awaitingHeader [b])
  | .awaitingHeader (f :: _), b => ([], .awaitingLengthMarker f b)
  | .awaitingLengthMarker f c, b =>
    if b < 0xFD then acceptLength f c b
    else if b = 0xFD then ([], .awaitingLengthTail f c 2 [])
    else if b = 0xFE then ([], .awaitingLengthTail f c 4 [])
    else ([], .awaitingLengthTail f c 8 [])
  | .awaitingLengthTail f c need buf, b =>
    if (buf ++ [b]).length < need then ([], .awaitingLengthTail f c need (buf ++ [b]))
    else acceptLength f c (le_val (buf ++ [b]))
  | .awaitingPayload f c remaining acc, b =>
    if remaining ≤ 1 then ([⟨f, c, acc ++ [b]⟩], .awaitingHeader [])
    else ([], .awaitingPayload f c (remaining - 1) (acc ++ [b]))
  | .failed e, _ => ([], .failed e)

/-- Modelled from the spec: FrameDecoder.feed of section 4.2, consuming a
chunk byte by byte, emitting completed frames in order and retaining the
in-progress state. -/
def feed : DecoderState → List Nat → List Frame × DecoderState
  | s, [] => ([], s)
  | s, b :: rest =>
    ((step s b).1 ++ (feed (step s b).2 rest).1, (feed (step s b).2 rest).2)

/-- Modelled from the spec: feeding a sequence of chunks one feed call at a
time, concatenating the emitted frames in order. -/
def feedAll : DecoderState → List (List Nat) → List Frame × DecoderState
  | s, [] => ([], s)
  | s, chunk :: rest =>
    ((feed s chunk).1 ++ (feedAll (feed s chunk).2 rest).1,
      (feedAll (feed s chunk).2 rest).2)

/-- Modelled from the spec: the VersionPayload record of section 3 of the
production codec, which is not among the provided sources. The user agent is
kept as raw bytes, as in the section 3 data model. -/
structure VersionPayload where
  version : Nat
  services : Nat
  timestamp : Nat
  port : Nat
  nonce : Nat
  user_agent : List Nat
  start_height : Nat
  relay : Bool
deriving DecidableEq

/-- A VersionPayload whose numeric fields fit their declared wire widths and
whose user agent is a byte string of encodable length. -/
def VersionPayload.WellFormed (v : VersionPayload) : Prop :=
  v.version < 2 ^ 32 ∧ v.services < 2 ^ 64 ∧ v.timestamp < 2 ^ 64 ∧
  v.port < 2 ^ 16 ∧ v.nonce < 2 ^ 32 ∧ v.start_height < 2 ^ 32 ∧
  v.user_agent.length < 2 ^ 64 ∧ ∀ b ∈ v.user_agent, b < 256

instance (v : VersionPayload) : Decidable v.WellFormed := by
  unfold VersionPayload.WellFormed
  infer_instance

/-- Modelled from the spec: VersionPayloadCodec.encode of section 4.4 —
version u32, services u64, timestamp u64, port u16, nonce u32, the
CompactSize length of the user agent followed by its raw bytes, start
height u32, relay as one byte 1 or 0. -/
def encode_version_payload (v : VersionPayload) : List Nat :=
  le_bytes 4 v.version ++ le_bytes 8 v.services ++ le_bytes 8 v.timestamp ++
  le_bytes 2 v.port ++ le_bytes 4 v.nonce ++
  encode_varint v.user_agent.length ++ v.user_agent ++
  le_bytes 4 v.start_height ++ [if v.relay then 1 else 0]

/-- Modelled from the spec: reading one fixed-width little-endian field,
returning its value and the remaining bytes, or none when the buffer is too
short. -/
def read_le (n : Nat) (bytes : List Nat) : Option (Nat × List Nat) :=
  if n ≤ bytes.length then some (le_val (bytes.take n), bytes.drop n) else none

/-- Modelled from the spec: VersionPayloadCodec.decode of section 4.4 of the
production codec, which is not among the provided sources. Consumes the
fields in encoding order; Truncated when bytes run out at a fixed-width
field or at the length prefix, InvalidUserAgentLength when the declared user
agent length exceeds the remaining buffer, InvalidRelayByte when the relay
byte is neither 0 nor 1. -/
def decode_version_payload (bytes : List Nat) : Except DecodeError VersionPayload :=
  match read_le 4 bytes with
  | none => .error .truncated
  | some (version, r1) =>
    match read_le 8 r1 with
    | none => .error .truncated
    | some (services, r2) =>
      match read_le 8 r2 with
      | none => .error .truncated
      | some (timestamp, r3) =>
        match read_le 2 r3 with
        | none => .error .truncated
        | some (port, r4) =>
          match read_le 4 r4 with
          | none => .error .truncated
          | some (nonce, r5) =>
            match decode_varint_strict r5 with
            | .error .incomplete => .error .truncated
            | .error e => .error e
            | .ok (ua_len, consumed) =>
              if ua_len ≤ (r5.drop consumed).length then
                match read_le 4 ((r5.drop consumed).drop ua_len) with
                | none => .error .truncated
                | some (start_height, r6) =>
                  match r6 with
                  | [] => .error .truncated
                  | relay_byte :: _ =>
                    if relay_byte = 1 then
                      .ok ⟨version, services, timestamp, port, nonce,
                        (r5.drop consumed).take ua_len, start_height, true⟩
                    else if relay_byte = 0 then
                      .ok ⟨version, services, timestamp, port, nonce,
                        (r5.drop consumed).take ua_len, start_height, false⟩
                    else .error .invalidRelayByte
              else .error .invalidUserAgentLength

/-- Modelled from the spec: the typed message of section 4.5. -/
inductive Message where
  | version (v : VersionPayload)
  | ping (nonce : Nat)
  | pong (nonce : Nat)
  | unknown (command : Nat) (payload : List Nat)
deriving DecidableEq

/-- Modelled from the spec: MessageDispatcher.interpret of section 4.5 of
the production codec, which is not among the provided sources. Command 0x00
decodes the Version payload, 0x01 and 0x02 read a u32 nonce from the payload
when at least 4 bytes are present, and every other command byte is forwarded
opaquely as Message.unknown. -/
def interpret (fr : Frame) : Except DecodeError Message :=
  if fr.command = 0x00 then
    match decode_version_payload fr.payload with
    | .error e => .error e
    | .ok v => .ok (.version v)
  else if fr.command = 0x01 then
    if 4 ≤ fr.payload.length then .ok (.ping (le_val (fr.payload.take 4)))
    else .error .truncated
  else if fr.command = 0x02 then
    if 4 ≤ fr.payload.length then .ok (.pong (le_val (fr.payload.take 4)))
    else .error .truncated
  else .ok (.unknown fr.command fr.payload)

/-! Helper lemmas about little-endian serialization. -/

theorem le_bytes_length (n v : Nat) : (le_bytes n v).length = n := by
  induction n generalizing v with
  | zero => rfl
  | succ k ih => simp [le_bytes, ih]

theorem le_val_le_bytes (n v : Nat) : le_val (le_bytes n v) = v % 256 ^ n := by
  induction n generalizing v with
  | zero => simp [le_bytes, le_val, Nat.mod_one]
  | succ k ih =>
    rw [Nat.pow_succ', Nat.mod_mul]
    simp [le_bytes, le_val, ih]

theorem take_le_bytes (n v : Nat) (rest : List Nat) :
    (le_bytes n v ++ rest).take n = le_bytes n v := by
  rw [List.take_append_eq_append_take, le_bytes_length, Nat.sub_self, List.take_zero,
    List.append_nil]
  exact List.take_of_length_le (by simp [le_bytes_length])

theorem drop_le_bytes (n v : Nat) (rest : List Nat) :
    (le_bytes n v ++ rest).drop n = rest := by
  rw [List.drop_append_eq_append_drop, le_bytes_length, Nat.sub_self, List.drop_zero,
    List.drop_eq_nil_of_le (by simp [le_bytes_length]), List.nil_append]

theorem take_le_bytes_self (n v : Nat) : (le_bytes n v).take n = le_bytes n v := by
  simpa using take_le_bytes n v []

theorem read_le_le_bytes (n v : Nat) (rest : List Nat) :
    read_le n (le_bytes n v ++ rest) = some (v % 256 ^ n, rest) := by
  have hlen : n ≤ (le_bytes n v ++ rest).length := by
    rw [List.length_append, le_bytes_length]
    exact Nat.le_add_right _ _
  unfold read_le
  rw [if_pos hlen, take_le_bytes, drop_le_bytes, le_val_le_bytes]

theorem read_le_le_bytes_lt (n v : Nat) (rest : List Nat) (h : v < 256 ^ n) :
    read_le n (le_bytes n v ++ rest) = some (v, rest) := by
  rw [read_le_le_bytes, Nat.mod_eq_of_lt h]

/-! Helper lemmas about the VarInt encoder. -/

theorem encode_varint_low (v : Nat) (h : v < 0xFD) : encode_varint v = [v] := by
  simp [encode_varint, h]

theorem encode_varint_mid (v : Nat) (h1 : 0xFD ≤ v) (h2 : v ≤ 0xFFFF) :
    encode_varint v = 0xFD :: le_bytes 2 v := by
  unfold encode_varint
  rw [if_neg (by omega), if_pos h2]

theorem encode_varint_high (v : Nat) (h1 : 0xFFFF < v) (h2 : v ≤ 0xFFFFFFFF) :
    encode_varint v = 0xFE :: le_bytes 4 v := by
  unfold encode_varint
  rw [if_neg (by omega), if_neg (by omega), if_pos h2]

theorem encode_varint_top (v : Nat) (h : 0xFFFFFFFF < v) :
    encode_varint v = 0xFF :: le_bytes 8 v := by
  unfold encode_varint
  rw [if_neg (by omega), if_neg (by omega), if_neg (by omega)]

/-- Claim C2: for every unsigned 64-bit value v, encode(v) has length
exactly 1 when v < 0xFD, exactly 3 (marker 0xFD plus u16 little-endian) when
0xFD ≤ v ≤ 0xFFFF, exactly 5 (marker 0xFE plus u32 little-endian) when
0xFFFF < v ≤ 0xFFFFFFFF, and exactly 9 (marker 0xFF plus u64 little-endian)
otherwise — never a wider form. -/
theorem varint_minimal_width (v : Nat) (hv : v < 2 ^ 64) :
    (v < 0xFD → encode_varint v = [v] ∧ (encode_varint v).length = 1)
  ∧ (0xFD ≤ v ∧ v ≤ 0xFFFF →
      encode_varint v = 0xFD :: le_bytes 2 v ∧ (encode_varint v).length = 3)
  ∧ (0xFFFF < v ∧ v ≤ 0xFFFFFFFF →
      encode_varint v = 0xFE :: le_bytes 4 v ∧ (encode_varint v).length = 5)
  ∧ (0xFFFFFFFF < v →
      encode_varint v = 0xFF :: le_bytes 8 v ∧ (encode_varint v).length = 9) := by
  refine ⟨fun h => ?_, fun h => ?_, fun h => ?_, fun h => ?_⟩
  · rw [encode_varint_low v h]
    exact ⟨rfl, rfl⟩
  · rw [encode_varint_mid v h.1 h.2]
    simp [le_bytes_length]
  · rw [encode_varint_high v h.1 h.2]
    simp [le_bytes_length]
  · rw [encode_varint_top v h]
    simp [le_bytes_length]

/-- Witness for claim C2 at v = 300 (Scenario B: length prefix FD 2C 01). -/
theorem varint_minimal_width_at :
    (300 : Nat) < 2 ^ 64 ∧
    (encode_varint 300 = 0xFD :: le_bytes 2 300 ∧ (encode_varint 300).length = 3) :=
  ⟨by decide, (varint_minimal_width 300 (by decide)).2.1 ⟨by decide, by decide⟩⟩

/-- Claim C3: for every unsigned 64-bit value v, decoding the bytes produced
by encode(v) yields the pair of v and the exact number of bytes the
encoding occupies. -/
theorem varint_round_trip (v : Nat) (hv : v < 2 ^ 64) :
    decode_varint (encode_varint v) = some (v, (encode_varint v).length) := by
  by_cases h1 : v < 0xFD
  · rw [encode_varint_low v h1]
    simp [decode_varint, h1]
  · by_cases h2 : v ≤ 0xFFFF
    · rw [encode_varint_mid v (by omega) h2]
      have hval : le_val (le_bytes 2 v) = v := by
        rw [le_val_le_bytes, Nat.mod_eq_of_lt (by norm_num; omega)]
      simp [decode_varint, le_bytes_length, take_le_bytes_self, hval]
    · by_cases h3 : v ≤ 0xFFFFFFFF
      · rw [encode_varint_high v (by omega) h3]
        have hval : le_val (le_bytes 4 v) = v := by
          rw [le_val_le_bytes, Nat.mod_eq_of_lt (by norm_num; omega)]
        simp [decode_varint, le_bytes_length, take_le_bytes_self, hval]
      · rw [encode_varint_top v (by omega)]
        have hval : le_val (le_bytes 8 v) = v := by
          rw [le_val_le_bytes, Nat.mod_eq_of_lt (by norm_num; omega)]
        simp [decode_varint, le_bytes_length, take_le_bytes_self, hval]

/-- Witness for claim C3 at v = 300. -/
theorem varint_round_trip_at :
    (300 : Nat) < 2 ^ 64 ∧
    decode_varint (encode_varint 300) = some (300, (encode_varint 300).length) :=
  ⟨by decide, varint_round_trip 300 (by decide)⟩

/-- Claim C5 counterexample: the Scenario A VersionPayload, as built by
create_neo3_version_message, does not encode to 39 bytes. -/
theorem version_message_not_39 : create_neo3_version_message.length ≠ 39 := by
  decide

/-- Claim C5 amended: the Scenario A VersionPayload encodes to exactly 42
bytes (4+8+8+2+4 + 1+10 + 4+1 = 42), and the script builder agrees with the
spec codec on it. -/
theorem version_message_len_42 :
    create_neo3_version_message.length = 42 ∧
    encode_version_payload ⟨0, 1, 0, 0, 0, neo_rust_ua, 0, true⟩ =
      create_neo3_version_message := by
  decide

/-- Claim C10 at the failing input: for a payload of exactly 65535 bytes the
builder emits the five-byte 0xFE length encoding, although the CompactSize
encoding of 65535 is the three-byte 0xFD form — the strict comparison
payload_len < 65535 in the script excludes the boundary value that the
minimal encoding table admits. -/
theorem create_neo3_message_at_65535 :
    create_neo3_message 1 (List.replicate 65535 0) =
      0 :: 1 :: 0xFE :: (le_bytes 4 65535 ++ List.replicate 65535 0)
    ∧ encode_varint 65535 = 0xFD :: le_bytes 2 65535 := by
  constructor
  · have hlen : (List.replicate 65535 (0 : Nat)).length = 65535 :=
      List.length_replicate 65535 0
    have h1 : ¬ (65535 : Nat) < 253 := by norm_num
    have h2 : ¬ (65535 : Nat) < 65535 := by norm_num
    unfold create_neo3_message varlen_encode
    rw [hlen, if_neg h1, if_neg h2]
    rfl
  · rw [encode_varint_mid 65535 (by norm_num) (by norm_num)]

/-- Claim C9: for every frame whose command byte is outside the known
registry, interpret returns Message.unknown carrying the command byte and
the payload unchanged, never an error. -/
theorem interpret_unknown_forward (f c : Nat) (payload : List Nat)
    (h0 : c ≠ 0x00) (h1 : c ≠ 0x01) (h2 : c ≠ 0x02) (h3 : c ≠ 0x03) :
    interpret ⟨f, c, payload⟩ = .ok (.unknown c payload) := by
  simp [interpret, h0, h1, h2]

/-- Witness for claim C9 (Scenario E: command 0x7F with payload 1, 2, 3). -/
theorem interpret_unknown_at :
    (0x7F : Nat) ≠ 0x00 ∧
    interpret ⟨0, 0x7F, [1, 2, 3]⟩ = .ok (.unknown 0x7F [1, 2, 3]) :=
  ⟨by decide,
    interpret_unknown_forward 0 0x7F [1, 2, 3] (by decide) (by decide) (by decide)
      (by decide)⟩

/-- Claim C6: the strict VarInt decoder rejects every non-minimally encoded
input — a wide form carrying a value that fits a narrower form — with
NonMinimalEncoding instead of returning the decoded value. -/
theorem strict_rejects_nonminimal (v : Nat) (rest : List Nat) :
    (v < 0xFD →
      decode_varint_strict (0xFD :: (le_bytes 2 v ++ rest)) = .error .nonMinimalEncoding)
  ∧ (v ≤ 0xFFFF →
      decode_varint_strict (0xFE :: (le_bytes 4 v ++ rest)) = .error .nonMinimalEncoding)
  ∧ (v ≤ 0xFFFFFFFF →
      decode_varint_strict (0xFF :: (le_bytes 8 v ++ rest)) = .error .nonMinimalEncoding) := by
  refine ⟨fun h => ?_, fun h => ?_, fun h => ?_⟩
  · have hlen : 2 ≤ (le_bytes 2 v ++ rest).length := by
      rw [List.length_append, le_bytes_length]
      omega
    have hval : le_val ((le_bytes 2 v ++ rest).take 2) = v := by
      rw [take_le_bytes, le_val_le_bytes,
        Nat.mod_eq_of_lt (by rw [show (256 : Nat) ^ 2 = 65536 from by norm_num]; omega)]
    have hmin : le_val ((le_bytes 2 v ++ rest).take 2) < 0xFD := by
      rw [hval]
      exact h
    simp only [decode_varint_strict]
    rw [if_pos hlen, if_pos hmin]
    norm_num
  · have hlen : 4 ≤ (le_bytes 4 v ++ rest).length := by
      rw [List.length_append, le_bytes_length]
      omega
    have hval : le_val ((le_bytes 4 v ++ rest).take 4) = v := by
      rw [take_le_bytes, le_val_le_bytes,
        Nat.mod_eq_of_lt (by rw [show (256 : Nat) ^ 4 = 4294967296 from by norm_num]; omega)]
    have hmin : le_val ((le_bytes 4 v ++ rest).take 4) ≤ 0xFFFF := by
      rw [hval]
      exact h
    simp only [decode_varint_strict]
    rw [if_pos hlen, if_pos hmin]
    norm_num
  · have hlen : 8 ≤ (le_bytes 8 v ++ rest).length := by
      rw [List.length_append, le_bytes_length]
      omega
    have hval : le_val ((le_bytes 8 v ++ rest).take 8) = v := by
      rw [take_le_bytes, le_val_le_bytes,
        Nat.mod_eq_of_lt
          (by rw [show (256 : Nat) ^ 8 = 18446744073709551616 from by norm_num]; omega)]
    have hmin : le_val ((le_bytes 8 v ++ rest).take 8) ≤ 0xFFFFFFFF := by
      rw [hval]
      exact h
    simp only [decode_varint_strict]
    rw [if_pos hlen, if_pos hmin]
    norm_num

/-- Witness for claim C6 at the 3-byte form 0xFD 05 00 encoding the value 5. -/
theorem strict_rejects_nonminimal_at :
    (5 : Nat) < 0xFD ∧
    decode_varint_strict (0xFD :: (le_bytes 2 5 ++ [])) = .error .nonMinimalEncoding :=
  ⟨by decide, (strict_rejects_nonminimal 5 []).1 (by decide)⟩

/-- The strict VarInt decoder accepts the output of the embedded encoder and
reports the exact width consumed. -/
theorem decode_varint_strict_encode (v : Nat) (rest : List Nat) (hv : v < 2 ^ 64) :
    decode_varint_strict (encode_varint v ++ rest) = .ok (v, (encode_varint v).length) := by
  by_cases h1 : v < 0xFD
  · rw [encode_varint_low v h1]
    simp [decode_varint_strict, h1]
  · by_cases h2 : v ≤ 0xFFFF
    · rw [encode_varint_mid v (by omega) h2]
      have hlen : 2 ≤ (le_bytes 2 v ++ rest).length := by
        rw [List.length_append, le_bytes_length]
        omega
      have hval : le_val ((le_bytes 2 v ++ rest).take 2) = v := by
        rw [take_le_bytes, le_val_le_bytes,
          Nat.mod_eq_of_lt (by rw [show (256 : Nat) ^ 2 = 65536 from by norm_num]; omega)]
      have hmin : ¬ le_val ((le_bytes 2 v ++ rest).take 2) < 0xFD := by
        rw [hval]
        omega
      simp only [decode_varint_strict, List.cons_append]
      rw [if_pos hlen, if_neg hmin, hval]
      norm_num [le_bytes_length]
    · by_cases h3 : v ≤ 0xFFFFFFFF
      · rw [encode_varint_high v (by omega) h3]
        have hlen : 4 ≤ (le_bytes 4 v ++ rest).length := by
          rw [List.length_append, le_bytes_length]
          omega
        have hval : le_val ((le_bytes 4 v ++ rest).take 4) = v := by
          rw [take_le_bytes, le_val_le_bytes,
            Nat.mod_eq_of_lt
              (by rw [show (256 : Nat) ^ 4 = 4294967296 from by norm_num]; omega)]
        have hmin : ¬ le_val ((le_bytes 4 v ++ rest).take 4) ≤ 0xFFFF := by
          rw [hval]
          omega
        simp only [decode_varint_strict, List.cons_append]
        rw [if_pos hlen, if_neg hmin, hval]
        norm_num [le_bytes_length]
      · rw [encode_varint_top v (by omega)]
        have hlen : 8 ≤ (le_bytes 8 v ++ rest).length := by
          rw [List.length_append, le_bytes_length]
          omega
        have hval : le_val ((le_bytes 8 v ++ rest).take 8) = v := by
          rw [take_le_bytes, le_val_le_bytes,
            Nat.mod_eq_of_lt
              (by rw [show (256 : Nat) ^ 8 = 18446744073709551616 from by norm_num]; omega)]
        have hmin : ¬ le_val ((le_bytes 8 v ++ rest).take 8) ≤ 0xFFFFFFFF := by
          rw [hval]
          omega
        simp only [decode_varint_strict, List.cons_append]
        rw [if_pos hlen, if_neg hmin, hval]
        norm_num [le_bytes_length]

theorem drop_encode_varint (v : Nat) (rest : List Nat) :
    (encode_varint v ++ rest).drop (encode_varint v).length = rest :=
  List.drop_left _ _

/-! Helper lemmas about the streaming decoder. -/

theorem feed_append (s : DecoderState) (a b : List Nat) :
    feed s (a ++ b) =
      ((feed s a).1 ++ (feed (feed s a).2 b).1, (feed (feed s a).2 b).2) := by
  induction a generalizing s with
  | nil => simp [feed]
  | cons x xs ih =>
    simp [feed, ih, List.append_assoc]

theorem feedAll_eq_feed_flatten (s : DecoderState) (chunks : List (List Nat)) :
    feedAll s chunks = feed s chunks.flatten := by
  induction chunks generalizing s with
  | nil => simp [feedAll, feed]
  | cons c cs ih =>
    simp [feedAll, List.flatten, feed_append, ih]

theorem feed_failed (e : DecodeError) (bytes : List Nat) :
    feed (.failed e) bytes = ([], .failed e) := by
  induction bytes with
  | nil => rfl
  | cons b rest ih => simp [feed, step, ih]

theorem feed_header (f c : Nat) (t : List Nat) :
    feed DecoderState.init (f :: c :: t) = feed (.awaitingLengthMarker f c) t := by
  simp [feed, step, DecoderState.init]

theorem feed_marker_fe (f c : Nat) (t : List Nat) :
    feed (.awaitingLengthMarker f c) (0xFE :: t) =
      feed (.awaitingLengthTail f c 4 []) t := by
  simp [feed, step]

theorem feed_marker_ff (f c : Nat) (t : List Nat) :
    feed (.awaitingLengthMarker f c) (0xFF :: t) =
      feed (.awaitingLengthTail f c 8 []) t := by
  simp [feed, step]

theorem feed_tail (f c need : Nat) (buf extra rest : List Nat)
    (hlen : buf.length + extra.length = need) (hne : extra ≠ []) :
    feed (.awaitingLengthTail f c need buf) (extra ++ rest) =
      ((acceptLength f c (le_val (buf ++ extra))).1 ++
        (feed (acceptLength f c (le_val (buf ++ extra))).2 rest).1,
        (feed (acceptLength f c (le_val (buf ++ extra))).2 rest).2) := by
  induction extra generalizing buf with
  | nil => exact absurd rfl hne
  | cons x xs ih =>
    by_cases hxs : xs = []
    · subst hxs
      have hc : ¬ (buf ++ [x]).length < need := by
        simp only [List.length_append, List.length_cons, List.length_nil] at hlen ⊢
        omega
      simp only [List.cons_append, List.nil_append, feed, step]
      rw [if_neg hc]
      simp
    · have hc : (buf ++ [x]).length < need := by
        have hpos : 0 < xs.length := List.length_pos.mpr hxs
        simp only [List.length_append, List.length_cons, List.length_nil] at hlen ⊢
        omega
      simp only [List.cons_append, feed, step]
      rw [if_pos hc]
      simp only [List.nil_append, List.append_eq]
      rw [ih (buf ++ [x]) (by simp at hlen ⊢; omega) hxs]
      simp [List.append_assoc]

/-- Claim C1: for every encoded byte stream and every partition of it into
contiguous fragments, feeding the fragments sequentially to feed (including
one byte at a time) yields exactly the same ordered sequence of Frames, and
leaves the decoder in the same state, as feeding the entire stream in a
single call. -/
theorem chunk_boundary_independence (chunks : List (List Nat)) :
    feedAll DecoderState.init chunks = feed DecoderState.init chunks.flatten :=
  feedAll_eq_feed_flatten DecoderState.init chunks

/-- Claim C4: for every input whose frame header declares a payload length
exceeding MAX_PAYLOAD_SIZE, the decoder fails with OversizedPayload
immediately after reading the length prefix — no frame is emitted and the
failed state buffers nothing, whatever payload bytes follow. -/
theorem oversized_guard (f c L : Nat) (rest : List Nat)
    (hmax : MAX_PAYLOAD_SIZE < L) (hL : L < 2 ^ 64) :
    feed DecoderState.init (f :: c :: (encode_varint L ++ rest)) =
      ([], DecoderState.failed DecodeError.oversizedPayload) := by
  have hmid : 0xFFFF < L := by
    have h : (0xFFFF : Nat) < MAX_PAYLOAD_SIZE := by norm_num [MAX_PAYLOAD_SIZE]
    omega
  rw [feed_header]
  by_cases h3 : L ≤ 0xFFFFFFFF
  · rw [encode_varint_high L hmid h3, List.cons_append, feed_marker_fe,
      feed_tail f c 4 [] (le_bytes 4 L) rest (by simp [le_bytes_length])
        (by simp [le_bytes])]
    have hval : le_val ([] ++ le_bytes 4 L) = L := by
      rw [List.nil_append, le_val_le_bytes,
        Nat.mod_eq_of_lt (by rw [show (256 : Nat) ^ 4 = 4294967296 from by norm_num]; omega)]
    rw [hval]
    unfold acceptLength
    rw [if_pos hmax]
    simp [feed_failed]
  · rw [encode_varint_top L (by omega), List.cons_append, feed_marker_ff,
      feed_tail f c 8 [] (le_bytes 8 L) rest (by simp [le_bytes_length])
        (by simp [le_bytes])]
    have hval : le_val ([] ++ le_bytes 8 L) = L := by
      rw [List.nil_append, le_val_le_bytes,
        Nat.mod_eq_of_lt
          (by rw [show (256 : Nat) ^ 8 = 18446744073709551616 from by norm_num]; omega)]
    rw [hval]
    unfold acceptLength
    rw [if_pos hmax]
    simp [feed_failed]

/-- Witness for claim C4 at declared length 100,000,000 (Scenario D). -/
theorem oversized_guard_at :
    MAX_PAYLOAD_SIZE < 100000000 ∧
    feed DecoderState.init (0 :: 0 :: (encode_varint 100000000 ++ [7, 7, 7])) =
      ([], DecoderState.failed DecodeError.oversizedPayload) :=
  ⟨by decide, oversized_guard 0 0 100000000 [7, 7, 7] (by decide) (by decide)⟩

/-- Claim C8: for every byte sequence whose fixed-width VersionPayload
fields parse but whose declared user-agent length exceeds the number of
bytes remaining in the buffer, decode fails with InvalidUserAgentLength
rather than returning a truncated value. -/
theorem ua_length_guard (a b c d e L : Nat) (rest : List Nat)
    (hL : L < 2 ^ 64) (hshort : rest.length < L) :
    decode_version_payload
      (le_bytes 4 a ++ le_bytes 8 b ++ le_bytes 8 c ++ le_bytes 2 d ++ le_bytes 4 e ++
        encode_varint L ++ rest) = .error .invalidUserAgentLength := by
  have hnot : ¬ L ≤ rest.length := by omega
  simp only [decode_version_payload, List.append_assoc, read_le_le_bytes,
    decode_varint_strict_encode, hL, drop_encode_varint, hnot, if_false]

/-- Witness for claim C8: declared user-agent length 5 with 3 bytes left. -/
theorem ua_length_guard_at :
    (5 : Nat) < 2 ^ 64 ∧ ([1, 2, 3] : List Nat).length < 5 ∧
    decode_version_payload
      (le_bytes 4 0 ++ le_bytes 8 0 ++ le_bytes 8 0 ++ le_bytes 2 0 ++ le_bytes 4 0 ++
        encode_varint 5 ++ [1, 2, 3]) = .error .invalidUserAgentLength :=
  ⟨by decide, by decide, ua_length_guard 0 0 0 0 0 5 [1, 2, 3] (by decide) (by decide)⟩

/-- Claim C7: for every well-formed VersionPayload value, decoding the bytes
produced by encoding it yields the same VersionPayload field for field. -/
theorem version_payload_round_trip (v : VersionPayload) (h : v.WellFormed) :
    decode_version_payload (encode_version_payload v) = .ok v := by
  obtain ⟨ver, serv, ts, port, nonce, ua, sh, relay⟩ := v
  unfold VersionPayload.WellFormed at h
  obtain ⟨h1, h2, h3, h4, h5, h6, h7, -⟩ := h
  have h1' : ver < 256 ^ 4 := by
    rw [show (256 : Nat) ^ 4 = 2 ^ 32 from by norm_num]
    exact h1
  have h2' : serv < 256 ^ 8 := by
    rw [show (256 : Nat) ^ 8 = 2 ^ 64 from by norm_num]
    exact h2
  have h3' : ts < 256 ^ 8 := by
    rw [show (256 : Nat) ^ 8 = 2 ^ 64 from by norm_num]
    exact h3
  have h4' : port < 256 ^ 2 := by
    rw [show (256 : Nat) ^ 2 = 2 ^ 16 from by norm_num]
    exact h4
  have h5' : nonce < 256 ^ 4 := by
    rw [show (256 : Nat) ^ 4 = 2 ^ 32 from by norm_num]
    exact h5
  have h6' : sh < 256 ^ 4 := by
    rw [show (256 : Nat) ^ 4 = 2 ^ 32 from by norm_num]
    exact h6
  have h7' : ua.length < 2 ^ 64 := h7
  have hle : ua.length ≤ (ua ++ (le_bytes 4 sh ++ [if relay then 1 else 0])).length := by
    rw [List.length_append]
    exact Nat.le_add_right _ _
  simp only [encode_version_payload, decode_version_payload, List.append_assoc,
    read_le_le_bytes_lt, h1', h2', h3', h4', h5', h6', h7', decode_varint_strict_encode,
    drop_encode_varint, hle, if_true, List.take_left, List.drop_left]
  cases relay <;> simp

/-- Witness for claim C7 at the Scenario A VersionPayload. -/
theorem version_payload_round_trip_at :
    VersionPayload.WellFormed ⟨0, 1, 0, 0, 0, neo_rust_ua, 0, true⟩ ∧
    decode_version_payload
        (encode_version_payload ⟨0, 1, 0, 0, 0, neo_rust_ua, 0, true⟩) =
      .ok ⟨0, 1, 0, 0, 0, neo_rust_ua, 0, true⟩ :=
  ⟨by decide, version_payload_round_trip ⟨0, 1, 0, 0, 0, neo_rust_ua, 0, true⟩ (by decide)⟩

end NeoP2P
